import Mathlib

/-
Verification of the MinBlit 2D blitting engine (src/include/MinBlit.hpp)
against its natural-language specification.

Shallow embedding conventions:
- `BltSize` (std::size_t, 64-bit unsigned) values are Nat; arithmetic that
  can wrap is reduced with an explicit `% 2 ^ 64`.
- `BltInteger` (std::intmax_t, 64-bit signed) values are Int; the
  implementation-defined size_t -> intmax_t conversion is modelled as the
  two's-complement reinterpretation `toIntmax`.
- Packed pixel values are Nat; the packed storage width `PW` and channel
  width `CW` (8 for all provided formats) are explicit parameters, and the
  C++ `~mask` complement is taken inside the storage width as
  `(2 ^ PW - 1) ^^^ mask`.
-/

namespace MinBlit

/-- Modulus of `BltSize` (std::size_t is 64 bits wide on this target). -/
def M64 : Nat := 2 ^ 64

/-- Conversion of a signed value to `BltSize` (size_t), i.e. reduction
modulo `2 ^ 64`; this is exactly the C++ unsigned conversion. -/
def toSizeT (z : Int) : Nat := (z % (M64 : Int)).toNat

/-- Conversion of a `BltSize` value to `BltInteger` (intmax_t): the
two's-complement reinterpretation of the low 64 bits. -/
def toIntmax (n : Nat) : Int :=
  if n % M64 < 2 ^ 63 then (n % M64 : Int) else (n % M64 : Int) - (M64 : Int)

/-- Unsigned (mod `2 ^ 64`) subtraction `a - b`, as performed when
`static_cast<BltInteger>(To.X) - From.X` is computed: both operands are
converted to the unsigned type of equal rank, so the subtraction itself
happens in size_t arithmetic. -/
def usub64 (a b : Nat) : Nat := (a % M64 + (M64 - b % M64)) % M64

/-
===========================  BltRect  ===========================
`BltRect<BltInteger>`: a center point and a half-extent point
(src/include/MinBlit.hpp:252-299).
-/

/-- Embedding of `BltRect<BltInteger>`: `Center` and `HalfDimensions`
component pairs. -/
structure BltRect where
  CenterX : Int
  CenterY : Int
  HalfX : Int
  HalfY : Int

/-- Embedding of `BltRect::Contains` (src/include/MinBlit.hpp:287-298).
`Dist = Center - Point`; the source tests `Abs(Dist.X) == Abs(HalfDimensions.X)`
(an equality) on the X axis and `Abs(Dist.Y) <= Abs(HalfDimensions.Y)` on the
Y axis.  `Abs` on `BltInteger` is the usual absolute value, modelled through
`Int.natAbs`. -/
def BltRect.Contains (r : BltRect) (px py : Int) : Bool :=
  let distX : Int := r.CenterX - px
  let distY : Int := r.CenterY - py
  if distX.natAbs = r.HalfX.natAbs then
    if distY.natAbs ≤ r.HalfY.natAbs then true else false
  else false

/-- The containment predicate the specification states for `Contains`:
the absolute per-axis distance from the center is within the absolute
half-extent on both axes, boundary inclusive. -/
def rectContainsSpec (r : BltRect) (px py : Int) : Prop :=
  (r.CenterX - px).natAbs ≤ r.HalfX.natAbs ∧
  (r.CenterY - py).natAbs ≤ r.HalfY.natAbs

/-
===========================  Pixel channels  ===========================
`BltPixelTraits` (src/include/MinBlit.hpp:306-355) and the channel
accessors of `BltPixel` (src/include/MinBlit.hpp:434-476).  The four
Get/Set method bodies are textually identical up to the channel's
depth/shift pair, so they are embedded once, parameterized by that pair.
-/

/-- One channel of a `BltPixelTraits` instantiation: its bit depth and its
bit offset (shift) inside the packed pixel. -/
structure BltChannel where
  depth : Nat
  shift : Nat

/-- Embedding of `BltPixelTraits::RedMask/GreenMask/BlueMask/AlphaMask`:
`((PixelType(1) << Depth) - PixelType(1)) << Shift`. -/
def chMask (c : BltChannel) : Nat := ((1 <<< c.depth) - 1) <<< c.shift

/-- Embedding of `BltPixel::SetRed/SetGreen/SetBlue/SetAlpha`
(src/include/MinBlit.hpp:454-476):
`PixelData &= ~Mask; PixelData |= (Value << Shift) & Mask;`.
`PW` is the bit width of `PixelType`, `CW` the bit width of `ChannelType`
(8 for every provided format); the incoming value is truncated to
`ChannelType` at the parameter boundary. -/
def setChannelRaw (PW CW : Nat) (c : BltChannel) (data v : Nat) : Nat :=
  (data &&& ((2 ^ PW - 1) ^^^ chMask c)) |||
    (((v % 2 ^ CW) <<< c.shift) &&& chMask c)

/-- Embedding of `BltPixel::GetRed/GetGreen/GetBlue/GetAlpha`
(src/include/MinBlit.hpp:434-452):
`return (PixelData & Mask) >> Shift;`, converted to `ChannelType` on
return (truncation to `CW` bits). -/
def getChannelRaw (CW : Nat) (c : BltChannel) (data : Nat) : Nat :=
  ((data &&& chMask c) >>> c.shift) % 2 ^ CW

/-- The red channel of the `RGBA8888` format (depth 8, offset 0). -/
def rgba8888Red : BltChannel := ⟨8, 0⟩

/-- The green channel of the `RGBA8888` format (depth 8, offset 8). -/
def rgba8888Green : BltChannel := ⟨8, 8⟩

/-
===========================  BltSurface  ===========================
src/include/MinBlit.hpp:511-804.  A surface owns a `Width * Height`
buffer of packed pixels, row-major.  The null buffer of the empty
surface is modelled as the empty list.
-/

/-- Embedding of `BltSurface`: width, height and the owned pixel buffer
(row-major, index `X + Y * Width`). -/
structure BltSurface where
  Width : Nat
  Height : Nat
  Pixels : List Nat
  deriving DecidableEq

/-- Embedding of the `BltSurface(BltSize Width, BltSize Height)`
constructor (src/include/MinBlit.hpp:528-542): a nonzero-by-nonzero
request allocates a zero-initialized `Width * Height` buffer, otherwise
both dimensions are forced to zero and no buffer is allocated. -/
def mkSurface (w h : Nat) : BltSurface :=
  if w ≠ 0 ∧ h ≠ 0 then ⟨w, h, List.replicate (w * h) 0⟩ else ⟨0, 0, []⟩

/-- Embedding of `BltSurface::SetPixel(BltSize, BltSize, BltPixel)`
(src/include/MinBlit.hpp:600-610): writes `Pixels[X + Y * Width]` only
when `X < Width` and `Y < Height`, otherwise a silent no-op. -/
def setPixel (s : BltSurface) (X Y : Nat) (p : Nat) : BltSurface :=
  if X < s.Width ∧ Y < s.Height then
    { s with Pixels := s.Pixels.set (X + Y * s.Width) p }
  else s

/-- Embedding of `BltSurface::GetPixel` (src/include/MinBlit.hpp:585-588):
`Pixels[X + Y * Width]` with no bounds check (out-of-range reads are
undefined in the source; the model returns 0 there). -/
def getPixel (s : BltSurface) (X Y : Nat) : Nat :=
  s.Pixels.getD (X + Y * s.Width) 0

/-- Embedding of `BltSurface::Fill` (src/include/MinBlit.hpp:612-619):
`std::fill_n(Pixels.get(), Width * Height, Pixel)`. -/
def fill (s : BltSurface) (p : Nat) : BltSurface :=
  { s with Pixels := List.replicate (s.Width * s.Height) p }

/-
===========================  Line drawing  ===========================
`BltSurface::Line` (src/include/MinBlit.hpp:621-680) and
`BltSurface::LineStipple` (src/include/MinBlit.hpp:682-750).

Both functions compute
  Delta     = ((BltInteger)To.X - From.X, (BltInteger)To.Y - From.Y)
  DeltaAbs  = (|Delta.X|, |Delta.Y|)           (stored back into BltSize)
  DeltaSign = (Sign(Delta.X), Sign(Delta.Y))   (-1/0/+1)
  Error     = DeltaAbs / 2                      (componentwise)
  Pen       = From
and then run one of two loops.  The horizontal loop (DeltaAbs.X >=
DeltaAbs.Y) iterates DeltaAbs.X times: it adds DeltaAbs.Y into Error.Y,
and when Error.Y >= DeltaAbs.X it subtracts DeltaAbs.X from Error.Y and
advances Pen.Y by DeltaSign.Y; it then advances Pen.X by DeltaSign.X and
calls SetPixel(Pen).  The vertical loop swaps the two axes.  The two
loops are textually identical up to that swap, so they are embedded once
(`lineTrackLoop`, over major/minor axes) and the vertical branch swaps
the emitted components back.

Notes on fidelity:
- Line 673 of the source reads `Pen.Y += Sign.Y;`.  `Sign` there names
  the free function template (the loop's local sign pair is `DeltaSign`),
  so the vertical branch does not compile as written; the evident intent
  is `DeltaSign.Y`, which is exactly what `LineStipple`'s vertical loop
  (line 739) and the previous revision of the header (where the local
  pair was itself named `Sign`) use.  The embedding uses the sign pair.
- `Pen` is a BltSize (unsigned) pair stepped by +-1; it is carried here
  as exact integers and reduced with `toSizeT` at the SetPixel boundary,
  which agrees with stepwise mod-2^64 wraparound because reduction
  commutes with integer addition.
- `Error` arithmetic cannot wrap: both components stay below
  2^63 + 2^63 = 2^64 (absolute deltas of 64-bit signed values are at
  most 2^63 and the accumulator stays below the major delta).
- The loops never read the surface, so interleaving the SetPixel calls
  with the stepping is equivalent to folding SetPixel over the list of
  stepped positions; the embedding records that list (the "track").
-/

/-- One Bresenham loop of `Line`/`LineStipple`, parameterized by the
driving (major) and minor axes: `dMaj`/`dMin` are the absolute deltas,
`sMaj`/`sMin` the signs, `maj`/`mnr` the pen components, `err` the minor
error accumulator, and the fuel is the remaining iteration count.  Emits
the successive pen positions (major component first). -/
def lineTrackLoop (dMaj dMin : Nat) (sMaj sMin : Int) :
    Nat → Int → Int → Nat → List (Int × Int)
  | 0, _, _, _ => []
  | n + 1, maj, mnr, err =>
    let e := err + dMin
    let mnr' := if dMaj ≤ e then mnr + sMin else mnr
    let e' := if dMaj ≤ e then e - dMaj else e
    let maj' := maj + sMaj
    (maj', mnr') :: lineTrackLoop dMaj dMin sMaj sMin n maj' mnr' e'

/-- The signed per-axis delta of `Line`/`LineStipple`:
`static_cast<BltInteger>(To) - From`, computed in unsigned arithmetic and
reinterpreted as intmax_t. -/
def lineDelta (f t : Nat) : Int := toIntmax (usub64 t f)

/-- The sequence of positions `BltSurface::Line` passes to `SetPixel`,
in order (src/include/MinBlit.hpp:621-680).  Positions are the exact
integer pen coordinates; `Line` reduces them with `toSizeT` when calling
`SetPixel`. -/
def lineTrack (F T : Nat × Nat) : List (Int × Int) :=
  let dX := lineDelta F.1 T.1
  let dY := lineDelta F.2 T.2
  let dax := dX.natAbs
  let day := dY.natAbs
  if day ≤ dax then
    lineTrackLoop dax day dX.sign dY.sign dax (F.1 : Int) (F.2 : Int) (day / 2)
  else
    (lineTrackLoop day dax dY.sign dX.sign day (F.2 : Int) (F.1 : Int)
        (dax / 2)).map (fun p => (p.2, p.1))

/-- Application of `SetPixel` at an exact integer position: both coordinates are
converted to `BltSize` (reduced mod 2^64) at the call boundary. -/
def setPixelAt (s : BltSurface) (q : Int × Int) (c : Nat) : BltSurface :=
  setPixel s (toSizeT q.1) (toSizeT q.2) c

/-- Embedding of `BltSurface::Line`: every stepped pen position is
written through `SetPixel`. -/
def Line (s : BltSurface) (F T : Nat × Nat) (c : Nat) : BltSurface :=
  (lineTrack F T).foldl (fun acc q => setPixelAt acc q c) s

/-- The stipple pattern update
`Pattern = (Pattern << 1) | (Pattern >> (sizeof(BltSize) * CHAR_BIT) - 1);`
(src/include/MinBlit.hpp:726,747): a left rotation by one bit of the
64-bit pattern (the shift count parses as `(8 * 8) - 1 = 63`). -/
def rotl64 (p : Nat) : Nat :=
  (((p % M64) <<< 1) % M64) ||| ((p % M64) >>> 63)

/-- One Bresenham loop of `LineStipple`, stepping exactly like
`lineTrackLoop` but writing a position only when bit 0 of the pattern is
set, and rotating the pattern after every step whether or not the pixel
was written.  Returns (candidate positions, written positions). -/
def lineStippleLoop (dMaj dMin : Nat) (sMaj sMin : Int) :
    Nat → Int → Int → Nat → Nat → List (Int × Int) × List (Int × Int)
  | 0, _, _, _, _ => ([], [])
  | n + 1, maj, mnr, err, pat =>
    let e := err + dMin
    let mnr' := if dMaj ≤ e then mnr + sMin else mnr
    let e' := if dMaj ≤ e then e - dMaj else e
    let maj' := maj + sMaj
    let rest := lineStippleLoop dMaj dMin sMaj sMin n maj' mnr' e' (rotl64 pat)
    ((maj', mnr') :: rest.1,
      if pat &&& 1 = 1 then (maj', mnr') :: rest.2 else rest.2)

/-- The candidate and written position sequences of
`BltSurface::LineStipple` (src/include/MinBlit.hpp:682-750); same
geometry as `lineTrack`. -/
def lineStippleTrack (F T : Nat × Nat) (pat : Nat) :
    List (Int × Int) × List (Int × Int) :=
  let dX := lineDelta F.1 T.1
  let dY := lineDelta F.2 T.2
  let dax := dX.natAbs
  let day := dY.natAbs
  if day ≤ dax then
    lineStippleLoop dax day dX.sign dY.sign dax (F.1 : Int) (F.2 : Int)
      (day / 2) pat
  else
    let r := lineStippleLoop day dax dY.sign dX.sign day (F.2 : Int)
      (F.1 : Int) (dax / 2) pat
    (r.1.map (fun p => (p.2, p.1)), r.2.map (fun p => (p.2, p.1)))

/-- Embedding of `BltSurface::LineStipple`: the written positions are
passed to `SetPixel`. -/
def LineStipple (s : BltSurface) (F T : Nat × Nat) (c : Nat) (pat : Nat) :
    BltSurface :=
  (lineStippleTrack F T pat).2.foldl (fun acc q => setPixelAt acc q c) s

/-
===========================  Circle drawing  ===========================
`BltSurface::Circle` (src/include/MinBlit.hpp:752-799), midpoint circle
with eight mirrored writes per iteration.  As with the line, positions
are recorded as the exact integers handed to `SetPixel`; the conversion
of each coordinate to `BltSize` reduces mod 2^64 and commutes with the
reflections, so the symmetry claim is settled at the integer level.
-/

/-- The eight positions one `Circle` iteration passes to `SetPixel`
(src/include/MinBlit.hpp:778-791), in source order:
`P = BltPointInt(Center.X, Center.X) - Offset` (both components are built
from `Center.X`), `W = Offset * 2`, and the writes are
`(P.X, Cy±Oy)`, `(P.X+W.X, Cy±Oy)`, `(P.Y, Cy±Ox)`, `(P.Y+W.Y, Cy±Ox)`. -/
def circleOrbit (cx cy a b : Int) : List (Int × Int) :=
  [(cx - a, cy + b), (cx - a + 2 * a, cy + b),
   (cx - a, cy - b), (cx - a + 2 * a, cy - b),
   (cx - b, cy + a), (cx - b + 2 * b, cy + a),
   (cx - b, cy - a), (cx - b + 2 * b, cy - a)]

/-- The `while (Offset.X <= Offset.Y)` loop of `Circle`
(src/include/MinBlit.hpp:776-797), emitting the `SetPixel` positions.
`a`/`b` are `Offset.X`/`Offset.Y` (BltSize values; within the loop
reachable from `Circle` they never wrap, see `circleCandidates`), `bal`
is the `BltInteger` decision variable.  `Balance += Offset.X++ + Offset.X`
adds `a + (a+1)`; `Balance -= --Offset.Y + Offset.Y` is an unsequenced
C++ expression, modelled with the decrement applied first (subtracting
`(b-1) + (b-1)`) — the choice affects only which octant pairs are
emitted, never the per-iteration eight-fold mirroring. -/
def circleLoop (cx cy : Int) (a b : Nat) (bal : Int) : List (Int × Int) :=
  if _h : a ≤ b then
    circleOrbit cx cy a b ++
      (if 0 ≤ bal + ((a + (a + 1) : Nat) : Int) then
        circleLoop cx cy (a + 1) (b - 1)
          (bal + ((a + (a + 1) : Nat) : Int) - (((b - 1) + (b - 1) : Nat) : Int))
       else circleLoop cx cy (a + 1) b (bal + ((a + (a + 1) : Nat) : Int)))
  else []
termination_by b + 1 - a
decreasing_by all_goals omega

/-- The full sequence of positions `Circle(Center, Radius, Color)` passes
to `SetPixel` (src/include/MinBlit.hpp:766-799): radius zero draws
nothing, otherwise the loop starts at `Offset = (0, Radius)` and
`Balance = -(BltInteger)Radius`. -/
def circleCandidates (cx cy R : Nat) : List (Int × Int) :=
  if R ≠ 0 then circleLoop cx cy 0 R (-(R : Int)) else []

/-- The selection rule the specification states for the stippled line
(spec 4.4): walking the candidate sequence, a candidate is written
exactly when bit 0 of the pattern is 1 at its step, and the pattern is
rotated left by one bit after every step, written or not.  (Equivalently:
step `i` is written iff bit 0 of the pattern after `i` left rotations is
1.) -/
def stippleSpecSelect (pat : Nat) : List (Int × Int) → List (Int × Int)
  | [] => []
  | q :: qs =>
    if pat &&& 1 = 1 then q :: stippleSpecSelect (rotl64 pat) qs
    else stippleSpecSelect (rotl64 pat) qs

/-
===========================  Buffer ownership  ===========================
The copy constructor (src/include/MinBlit.hpp:544-558) and copy
assignment (src/include/MinBlit.hpp:560-573) allocate a fresh buffer
(`Pixels.reset(new PixelType[W*H]())`) and `std::copy_n` the source's
`W*H` pixels into it.  To state that this is a deep copy (no buffer
sharing), allocation is reified: a heap maps buffer handles to buffer
contents, surfaces hold the handle their `unique_ptr` owns, and `new`
returns the next unused handle.  All drawing operations mutate the heap
only through the surface's own handle, exactly as the source mutates
only through its own `Pixels` pointer.
-/

/-- The allocator state: the next fresh buffer handle and the contents
of every allocated buffer. -/
structure Heap where
  next : Nat
  bufs : Nat → List Nat

/-- A surface whose `Pixels` member is the handle of the buffer its
`unique_ptr` owns. -/
structure HSurface where
  Width : Nat
  Height : Nat
  Pixels : Nat

/-- Embedding of the copy constructor `BltSurface(const BltSurface&)`
(src/include/MinBlit.hpp:544-558): copies the dimensions, allocates a
fresh buffer and copies the source's `Width * Height` pixels into it. -/
def copySurface (hp : Heap) (o : HSurface) : HSurface × Heap :=
  (⟨o.Width, o.Height, hp.next⟩,
   ⟨hp.next + 1, fun i =>
      if i = hp.next then (hp.bufs o.Pixels).take (o.Width * o.Height)
      else hp.bufs i⟩)

/-- Embedding of the copy assignment `operator=` (src/include/MinBlit.hpp:
560-573): the target takes the source's dimensions and a freshly
allocated buffer holding a copy of the source's pixels (its old buffer
is released). -/
def assignSurface (hp : Heap) (_d o : HSurface) : HSurface × Heap :=
  (⟨o.Width, o.Height, hp.next⟩,
   ⟨hp.next + 1, fun i =>
      if i = hp.next then (hp.bufs o.Pixels).take (o.Width * o.Height)
      else hp.bufs i⟩)

/-- The `SetPixel` operation acting through a surface's buffer handle. -/
def hSetPixel (hp : Heap) (s : HSurface) (X Y p : Nat) : Heap :=
  if X < s.Width ∧ Y < s.Height then
    { hp with bufs := fun i =>
        if i = s.Pixels then (hp.bufs s.Pixels).set (X + Y * s.Width) p
        else hp.bufs i }
  else hp

/-- The `Fill` operation acting through a surface's buffer handle. -/
def hFill (hp : Heap) (s : HSurface) (p : Nat) : Heap :=
  { hp with bufs := fun i =>
      if i = s.Pixels then List.replicate (s.Width * s.Height) p
      else hp.bufs i }

/-- Application of `SetPixel` at an exact integer position through a handle (the
coordinates are reduced to `BltSize` at the call boundary). -/
def hSetPixelAt (hp : Heap) (s : HSurface) (q : Int × Int) (c : Nat) :
    Heap :=
  hSetPixel hp s (toSizeT q.1) (toSizeT q.2) c

/-- The `Line` operation acting through a surface's buffer handle. -/
def hLine (hp : Heap) (s : HSurface) (F T : Nat × Nat) (c : Nat) : Heap :=
  (lineTrack F T).foldl (fun acc q => hSetPixelAt acc s q c) hp

/-- The `LineStipple` operation acting through a surface's buffer handle. -/
def hLineStipple (hp : Heap) (s : HSurface) (F T : Nat × Nat)
    (c pat : Nat) : Heap :=
  (lineStippleTrack F T pat).2.foldl (fun acc q => hSetPixelAt acc s q c) hp

/-- The `Circle` operation acting through a surface's buffer handle. -/
def hCircle (hp : Heap) (s : HSurface) (cx cy R c : Nat) : Heap :=
  (circleCandidates cx cy R).foldl (fun acc q => hSetPixelAt acc s q c) hp

/-- One mutation of a surface: any of the public buffer-mutating
operations of `BltSurface`. -/
inductive DrawOp where
  | setPix (X Y p : Nat)
  | fillOp (p : Nat)
  | lineOp (F T : Nat × Nat) (c : Nat)
  | stippleOp (F T : Nat × Nat) (c pat : Nat)
  | circleOp (cx cy R c : Nat)

/-- Apply one drawing operation to a surface, mutating the heap. -/
def applyOp (hp : Heap) (s : HSurface) : DrawOp → Heap
  | .setPix X Y p => hSetPixel hp s X Y p
  | .fillOp p => hFill hp s p
  | .lineOp F T c => hLine hp s F T c
  | .stippleOp F T c pat => hLineStipple hp s F T c pat
  | .circleOp cx cy R c => hCircle hp s cx cy R c

/-- Apply a sequence of drawing operations to a surface. -/
def applyOps (hp : Heap) (s : HSurface) (ops : List DrawOp) : Heap :=
  ops.foldl (fun acc op => applyOp acc s op) hp

end MinBlit

/-
===========================  Theorems  ===========================
-/

namespace MinBlit

/-- C6: `SetPixel` at any coordinate with `x >= Width` or `y >= Height`
leaves the surface (buffer and dimensions) entirely unchanged; the
operation is total, so it cannot fail or signal an error. -/
theorem setPixel_oob_noop (s : BltSurface) (x y p : Nat)
    (h : s.Width ≤ x ∨ s.Height ≤ y) : setPixel s x y p = s := by
  unfold setPixel
  rw [if_neg]
  rcases h with h | h <;> intro hc <;> rcases hc with ⟨hx, hy⟩ <;> omega

/-- Witness for `setPixel_oob_noop` at a concrete out-of-bounds write on a
4×4 surface. -/
theorem setPixel_oob_noop_witness :
    setPixel (mkSurface 4 4) 7 2 99 = mkSurface 4 4 :=
  setPixel_oob_noop (mkSurface 4 4) 7 2 99 (Or.inl (by decide))

/-- C9: constructing a surface never fails; zero in either dimension
yields the empty surface (both dimensions forced to zero, no buffer),
while two nonzero dimensions yield exactly the requested width and
height (with a zero-initialized `w * h` buffer). -/
theorem surface_ctor_zero_dims (w h : Nat) :
    ((w = 0 ∨ h = 0) → mkSurface w h = ⟨0, 0, []⟩) ∧
    (w ≠ 0 → h ≠ 0 →
      (mkSurface w h).Width = w ∧ (mkSurface w h).Height = h ∧
        (mkSurface w h).Pixels = List.replicate (w * h) 0) := by
  constructor
  · intro hz
    unfold mkSurface
    rw [if_neg]
    rintro ⟨hw, hh⟩
    rcases hz with hz | hz <;> [exact hw hz; exact hh hz]
  · intro hw hh
    unfold mkSurface
    rw [if_pos ⟨hw, hh⟩]
    exact ⟨rfl, rfl, rfl⟩

/-- Witness for `surface_ctor_zero_dims`: the degenerate 0×5 request
collapses to the empty surface and the 3×2 request is honored. -/
theorem surface_ctor_zero_dims_witness :
    mkSurface 0 5 = ⟨0, 0, []⟩ ∧
      ((mkSurface 3 2).Width = 3 ∧ (mkSurface 3 2).Height = 2 ∧
        (mkSurface 3 2).Pixels = List.replicate (3 * 2) 0) := by
  refine ⟨(surface_ctor_zero_dims 0 5).1 (Or.inl rfl), ?_⟩
  exact (surface_ctor_zero_dims 3 2).2 (by decide) (by decide)

/-- The channel mask written with the shift in explicit power-of-two form. -/
theorem chMask_eq (c : BltChannel) :
    chMask c = (2 ^ c.depth - 1) <<< c.shift := by
  simp [chMask, Nat.shiftLeft_eq]

/-- C7: for every channel (depth `d`, any offset that fits the packed
storage width) and every incoming value `v`, `SetChannel(v)` followed by
`GetChannel()` yields exactly `v mod 2^d`: the round-trip is the identity
on `[0, 2^d)` and silently truncates the excess high bits otherwise. -/
theorem channel_roundtrip_mod (PW CW : Nat) (c : BltChannel) (data v : Nat)
    (hd : c.depth ≤ CW) (hw : c.depth + c.shift ≤ PW) :
    getChannelRaw CW c (setChannelRaw PW CW c data v) = v % 2 ^ c.depth := by
  apply Nat.eq_of_testBit_eq
  intro i
  simp only [getChannelRaw, setChannelRaw, chMask_eq,
    Nat.testBit_mod_two_pow, Nat.testBit_shiftRight, Nat.testBit_and,
    Nat.testBit_or, Nat.testBit_xor, Nat.testBit_shiftLeft,
    Nat.testBit_two_pow_sub_one, Nat.le_add_right, decide_True,
    Bool.true_and, Nat.add_sub_cancel_left]
  by_cases hid : i < c.depth
  · have hicw : i < CW := Nat.lt_of_lt_of_le hid hd
    have hpw : c.shift + i < PW := by omega
    simp [hid, hicw, hpw]
  · simp [hid]

/-- Witness for `channel_roundtrip_mod`: the RGBA8888 red channel
(depth 8, offset 0 inside a 32-bit pixel) truncates `v = 0x1AB` to
`0xAB`. -/
theorem channel_roundtrip_mod_witness :
    getChannelRaw 8 rgba8888Red (setChannelRaw 32 8 rgba8888Red 0 427) =
      427 % 2 ^ rgba8888Red.depth :=
  channel_roundtrip_mod 32 8 rgba8888Red 0 427 (by decide) (by decide)

/-- C10: when two channels occupy disjoint bit-fields (as in the default
cumulative layout and all five provided formats), a setter for one
channel leaves the value read from the other channel unchanged. -/
theorem channel_setter_frame (PW CW : Nat) (cA cB : BltChannel)
    (data v : Nat) (hdisj : chMask cA &&& chMask cB = 0)
    (hB : cB.depth + cB.shift ≤ PW) :
    getChannelRaw CW cB (setChannelRaw PW CW cA data v) =
      getChannelRaw CW cB data := by
  apply Nat.eq_of_testBit_eq
  intro i
  have hmask : ∀ j, (chMask cA).testBit j = true →
      (chMask cB).testBit j = false := by
    intro j hj
    have := congrArg (fun n => n.testBit j) hdisj
    simpa [hj] using this
  simp only [getChannelRaw, setChannelRaw,
    Nat.testBit_mod_two_pow, Nat.testBit_shiftRight, Nat.testBit_and,
    Nat.testBit_or, Nat.testBit_xor]
  by_cases hiB : (chMask cB).testBit (cB.shift + i) = true
  · have hiA : (chMask cA).testBit (cB.shift + i) = false := by
      by_cases h : (chMask cA).testBit (cB.shift + i) = true
      · exact absurd (hmask _ h) (by simp [hiB])
      · simpa using h
    have hpw : cB.shift + i < PW := by
      rcases Nat.lt_or_ge (cB.shift + i) PW with h | h
      · exact h
      · exfalso
        rw [chMask_eq] at hiB
        simp only [Nat.testBit_shiftLeft, Nat.testBit_two_pow_sub_one] at hiB
        have h2 : decide (cB.shift + i - cB.shift < cB.depth) = true :=
          (Bool.and_elim_right hiB)
        have h2' : cB.shift + i - cB.shift < cB.depth := of_decide_eq_true h2
        omega
    simp [hiA, hiB, hpw]
  · have hiB' : (chMask cB).testBit (cB.shift + i) = false := by
      simpa using hiB
    simp [hiB']

/-- Witness for `channel_setter_frame`: in RGBA8888 the red and green
masks are disjoint, and setting red leaves the green read unchanged on a
concrete pixel. -/
theorem channel_setter_frame_witness :
    getChannelRaw 8 rgba8888Green
        (setChannelRaw 32 8 rgba8888Red 305419896 7) =
      getChannelRaw 8 rgba8888Green 305419896 :=
  channel_setter_frame 32 8 rgba8888Red rgba8888Green 305419896 7
    (by decide) (by decide)

/-- The composite `toIntmax (usub64 t f)` recovers the exact signed difference whenever
both coordinates are below `2 ^ 63`. -/
theorem toIntmax_usub64 {a b : Nat} (ha : a < 2 ^ 63) (hb : b < 2 ^ 63) :
    toIntmax (usub64 a b) = (a : Int) - b := by
  simp only [toIntmax, usub64, M64]
  split <;> omega

/-- Each Bresenham loop iteration emits exactly one position. -/
theorem lineTrackLoop_length (dMaj dMin : Nat) (sMaj sMin : Int) :
    ∀ (n : Nat) (maj mnr : Int) (err : Nat),
      (lineTrackLoop dMaj dMin sMaj sMin n maj mnr err).length = n := by
  intro n
  induction n with
  | zero => intro maj mnr err; rfl
  | succ m IH => intro maj mnr err; simp [lineTrackLoop, IH]

/-- C1 (counterexample): with `From = To = (1,1)` the claim demands
`max(0,0) + 1 = 1` written position, but `Line` performs no `SetPixel`
call at all (the pen is advanced before the first write, and the loop
runs `max(|dx|,|dy|) = 0` times). -/
theorem line_count_claim_cex :
    (lineTrack (1, 1) (1, 1)).length ≠
      max ((1 : Int) - 1).natAbs ((1 : Int) - 1).natAbs + 1 := by
  decide

/-- C1 (amended): `Line(From, To)` passes exactly
`max(|To.X - From.X|, |To.Y - From.Y|)` positions to `SetPixel` (the
starting point is not written), and in the degenerate case `From = To`
it writes no position at all. -/
theorem line_count_amended (F T : Nat × Nat)
    (h1 : F.1 < 2 ^ 63) (h2 : F.2 < 2 ^ 63)
    (h3 : T.1 < 2 ^ 63) (h4 : T.2 < 2 ^ 63) :
    (lineTrack F T).length =
      max ((T.1 : Int) - F.1).natAbs ((T.2 : Int) - F.2).natAbs ∧
    (F = T → lineTrack F T = []) := by
  have eX : lineDelta F.1 T.1 = (T.1 : Int) - F.1 := toIntmax_usub64 h3 h1
  have eY : lineDelta F.2 T.2 = (T.2 : Int) - F.2 := toIntmax_usub64 h4 h2
  constructor
  · simp only [lineTrack, eX, eY]
    split
    · rename_i h
      rw [lineTrackLoop_length]
      exact (Nat.max_eq_left h).symm
    · rename_i h
      rw [List.length_map, lineTrackLoop_length]
      exact (Nat.max_eq_right (by omega)).symm
  · intro hFT
    subst hFT
    simp only [lineTrack, eX, eY]
    simp [lineTrackLoop]

/-- Witness for `line_count_amended` at `From = (0,0)`, `To = (3,3)`:
three positions are stepped, and the degenerate clause holds vacuously. -/
theorem line_count_amended_witness :
    (lineTrack (0, 0) (3, 3)).length =
      max ((3 : Int) - 0).natAbs ((3 : Int) - 0).natAbs ∧
    ((0, 0) = ((3, 3) : Nat × Nat) → lineTrack (0, 0) (3, 3) = []) :=
  line_count_amended (0, 0) (3, 3) (by decide) (by decide) (by decide)
    (by decide)

/-- Closed form for the position reached after `n` more loop iterations:
the major component advances `n` steps, the minor component advances once
per error wrap, i.e. `(err + n * dMin) / dMaj` times. -/
theorem lineTrackLoop_closed_mem (dMaj dMin : Nat) (sMaj sMin : Int) :
    ∀ (n : Nat) (maj mnr : Int) (err : Nat),
      0 < n → dMin ≤ dMaj → err < dMaj →
      (maj + (n : Int) * sMaj,
        mnr + (((err + n * dMin) / dMaj : Nat) : Int) * sMin) ∈
        lineTrackLoop dMaj dMin sMaj sMin n maj mnr err := by
  intro n
  induction n with
  | zero => intro maj mnr err h; exact absurd h (by omega)
  | succ m IH =>
    intro maj mnr err _ hle herr
    have hd : 0 < dMaj := by omega
    have hsm : (m + 1) * dMin = m * dMin + dMin := Nat.succ_mul m dMin
    by_cases hw : dMaj ≤ err + dMin
    · rcases Nat.eq_zero_or_pos m with hm | hm
      · subst hm
        have hdiv : (err + 1 * dMin) / dMaj = 1 := by
          apply Nat.div_eq_of_lt_le <;> omega
        simp only [lineTrackLoop, if_pos hw, hdiv, List.mem_cons,
          Prod.mk.injEq]
        left
        constructor <;> push_cast <;> ring
      · have herr' : err + dMin - dMaj < dMaj := by omega
        have hmem := IH (maj + sMaj) (mnr + sMin) (err + dMin - dMaj)
          hm hle herr'
        have hdiv : (err + dMin - dMaj + m * dMin) / dMaj + 1
            = (err + (m + 1) * dMin) / dMaj := by
          have h1 : err + (m + 1) * dMin
              = (err + dMin - dMaj + m * dMin) + dMaj := by omega
          rw [h1, Nat.add_div_right _ hd]
        have e1 : maj + (((m + 1 : Nat)) : Int) * sMaj
            = (maj + sMaj) + (m : Int) * sMaj := by
          push_cast
          ring
        have e2 : mnr + (((err + (m + 1) * dMin) / dMaj : Nat) : Int) * sMin
            = (mnr + sMin) +
              (((err + dMin - dMaj + m * dMin) / dMaj : Nat) : Int) * sMin := by
          rw [← hdiv]
          push_cast
          ring
        simp only [lineTrackLoop, if_pos hw, List.mem_cons]
        right
        rw [e1, e2]
        exact hmem
    · have hlt : err + dMin < dMaj := by omega
      rcases Nat.eq_zero_or_pos m with hm | hm
      · subst hm
        have hdiv : (err + 1 * dMin) / dMaj = 0 := Nat.div_eq_of_lt (by omega)
        simp only [lineTrackLoop, if_neg hw, hdiv, List.mem_cons,
          Prod.mk.injEq]
        left
        constructor <;> push_cast <;> ring
      · have hmem := IH (maj + sMaj) mnr (err + dMin) hm hle hlt
        have hdiv : err + dMin + m * dMin = err + (m + 1) * dMin := by omega
        have e1 : maj + (((m + 1 : Nat)) : Int) * sMaj
            = (maj + sMaj) + (m : Int) * sMaj := by
          push_cast
          ring
        simp only [lineTrackLoop, if_neg hw, List.mem_cons]
        right
        rw [e1, ← hdiv]
        exact hmem

/-- C2 (counterexample): in the 4×4 `Fill(0)` scenario the claim demands
that pixel `(0,0)` equal the drawn value `5` after
`Line((0,0),(3,3),5)`, but it remains `0`: the starting endpoint is
never written. -/
theorem line_endpoints_claim_cex :
    ¬ (getPixel (Line (fill (mkSurface 4 4) 0) (0, 0) (3, 3) 5) 0 0 = 5) := by
  decide

/-- C2 (amended): the destination endpoint `To` is always among the
positions `Line` writes whenever `From ≠ To` (the source endpoint is not
written in general), and in the 4×4 scenario the resulting buffer holds
the drawn value exactly at `(1,1)`, `(2,2)`, `(3,3)` with every other
pixel (including `(0,0)`) still `0`. -/
theorem line_endpoint_amended (F T : Nat × Nat)
    (h1 : F.1 < 2 ^ 63) (h2 : F.2 < 2 ^ 63)
    (h3 : T.1 < 2 ^ 63) (h4 : T.2 < 2 ^ 63) (hne : F ≠ T) :
    ((T.1 : Int), (T.2 : Int)) ∈ lineTrack F T ∧
    (Line (fill (mkSurface 4 4) 0) (0, 0) (3, 3) 5).Pixels =
      [0, 0, 0, 0, 0, 5, 0, 0, 0, 0, 5, 0, 0, 0, 0, 5] := by
  refine ⟨?_, by decide⟩
  have eX : lineDelta F.1 T.1 = (T.1 : Int) - F.1 := toIntmax_usub64 h3 h1
  have eY : lineDelta F.2 T.2 = (T.2 : Int) - F.2 := toIntmax_usub64 h4 h2
  set dX : Int := (T.1 : Int) - F.1 with hdX
  set dY : Int := (T.2 : Int) - F.2 with hdY
  have habsX : ((dX.natAbs : Int)) * dX.sign = dX := by
    rw [mul_comm]
    exact Int.sign_mul_natAbs dX
  have habsY : ((dY.natAbs : Int)) * dY.sign = dY := by
    rw [mul_comm]
    exact Int.sign_mul_natAbs dY
  have hnz : dX ≠ 0 ∨ dY ≠ 0 := by
    by_contra hc
    push_neg at hc
    have hx : (T.1 : Int) - F.1 = 0 := by rw [← hdX]; exact hc.1
    have hy : (T.2 : Int) - F.2 = 0 := by rw [← hdY]; exact hc.2
    exact hne (Prod.ext (by omega) (by omega))
  simp only [lineTrack, eX, eY, ← hdX, ← hdY]
  by_cases hbr : dY.natAbs ≤ dX.natAbs
  · rw [if_pos hbr]
    have hdax : 0 < dX.natAbs := by
      rcases hnz with h | h
      · exact Int.natAbs_pos.mpr h
      · have := Int.natAbs_pos.mpr h
        omega
    have herr : dY.natAbs / 2 < dX.natAbs := by omega
    have hdiv : (dY.natAbs / 2 + dX.natAbs * dY.natAbs) / dX.natAbs
        = dY.natAbs := by
      rw [Nat.add_mul_div_left _ _ hdax, Nat.div_eq_of_lt herr]
      omega
    have hmem := lineTrackLoop_closed_mem dX.natAbs dY.natAbs dX.sign dY.sign
      dX.natAbs (F.1 : Int) (F.2 : Int) (dY.natAbs / 2) hdax hbr herr
    rw [hdiv] at hmem
    have eT1 : (F.1 : Int) + (dX.natAbs : Int) * dX.sign = (T.1 : Int) := by
      rw [habsX, hdX]; ring
    have eT2 : (F.2 : Int) + (dY.natAbs : Int) * dY.sign = (T.2 : Int) := by
      rw [habsY, hdY]; ring
    rwa [eT1, eT2] at hmem
  · rw [if_neg hbr]
    have hday : 0 < dY.natAbs := by omega
    have herr : dX.natAbs / 2 < dY.natAbs := by omega
    have hdiv : (dX.natAbs / 2 + dY.natAbs * dX.natAbs) / dY.natAbs
        = dX.natAbs := by
      rw [Nat.add_mul_div_left _ _ hday, Nat.div_eq_of_lt herr]
      omega
    have hmem := lineTrackLoop_closed_mem dY.natAbs dX.natAbs dY.sign dX.sign
      dY.natAbs (F.2 : Int) (F.1 : Int) (dX.natAbs / 2) hday (by omega) herr
    rw [hdiv] at hmem
    have eT1 : (F.1 : Int) + (dX.natAbs : Int) * dX.sign = (T.1 : Int) := by
      rw [habsX, hdX]; ring
    have eT2 : (F.2 : Int) + (dY.natAbs : Int) * dY.sign = (T.2 : Int) := by
      rw [habsY, hdY]; ring
    rw [eT2, eT1] at hmem
    exact List.mem_map_of_mem (fun p => (p.2, p.1)) hmem

/-- Witness for `line_endpoint_amended`: for the descending line from
`(3,1)` to `(0,2)` the destination `(0,2)` is among the written
positions, and the 4×4 scenario buffer is as amended. -/
theorem line_endpoint_amended_witness :
    (((0 : Nat) : Int), ((2 : Nat) : Int)) ∈ lineTrack (3, 1) (0, 2) ∧
    (Line (fill (mkSurface 4 4) 0) (0, 0) (3, 3) 5).Pixels =
      [0, 0, 0, 0, 0, 5, 0, 0, 0, 0, 5, 0, 0, 0, 0, 5] :=
  line_endpoint_amended (3, 1) (0, 2) (by decide) (by decide) (by decide)
    (by decide) (by decide)

/-- The stipple loop steps through exactly the positions of the solid
line loop: the pattern plays no part in the geometry. -/
theorem lineStippleLoop_fst (dMaj dMin : Nat) (sMaj sMin : Int) :
    ∀ (n : Nat) (maj mnr : Int) (err pat : Nat),
      (lineStippleLoop dMaj dMin sMaj sMin n maj mnr err pat).1 =
        lineTrackLoop dMaj dMin sMaj sMin n maj mnr err := by
  intro n
  induction n with
  | zero => intro maj mnr err pat; rfl
  | succ m IH =>
    intro maj mnr err pat
    simp only [lineStippleLoop, lineTrackLoop, IH]

/-- The stipple loop writes exactly the candidates selected by the
rotating-pattern rule. -/
theorem lineStippleLoop_snd (dMaj dMin : Nat) (sMaj sMin : Int) :
    ∀ (n : Nat) (maj mnr : Int) (err pat : Nat),
      (lineStippleLoop dMaj dMin sMaj sMin n maj mnr err pat).2 =
        stippleSpecSelect pat
          (lineStippleLoop dMaj dMin sMaj sMin n maj mnr err pat).1 := by
  intro n
  induction n with
  | zero => intro maj mnr err pat; rfl
  | succ m IH =>
    intro maj mnr err pat
    simp only [lineStippleLoop, stippleSpecSelect, IH]

/-- The pattern-selection rule commutes with a componentwise relabelling
of the positions. -/
theorem stippleSpecSelect_map (f : Int × Int → Int × Int) :
    ∀ (l : List (Int × Int)) (pat : Nat),
      stippleSpecSelect pat (l.map f) = (stippleSpecSelect pat l).map f := by
  intro l
  induction l with
  | nil => intro pat; rfl
  | cons q qs IH =>
    intro pat
    simp only [List.map_cons, stippleSpecSelect, IH]
    split <;> simp

/-- C5: `LineStipple(From, To, Color, Pattern)` visits exactly the same
candidate position sequence as `Line(From, To, Color)`, and writes
exactly the candidates whose step has pattern bit 0 set, the pattern
being rotated left one bit (high bit wrapping into bit 0) after every
step whether or not the pixel was written. -/
theorem stipple_refines_line (F T : Nat × Nat) (pat : Nat) :
    (lineStippleTrack F T pat).1 = lineTrack F T ∧
    (lineStippleTrack F T pat).2 = stippleSpecSelect pat (lineTrack F T) := by
  by_cases h : (lineDelta F.2 T.2).natAbs ≤ (lineDelta F.1 T.1).natAbs
  · simp only [lineStippleTrack, lineTrack, if_pos h]
    exact ⟨lineStippleLoop_fst _ _ _ _ _ _ _ _ _,
      by rw [lineStippleLoop_snd, lineStippleLoop_fst]⟩
  · simp only [lineStippleTrack, lineTrack, if_neg h]
    constructor
    · rw [lineStippleLoop_fst]
    · rw [lineStippleLoop_snd, lineStippleLoop_fst, stippleSpecSelect_map]

/-- A position belongs to an iteration's eight-position write list
exactly when its offset from the center is `(±a, ±b)` or `(±b, ±a)`. -/
theorem mem_circleOrbit (cx cy a b dx dy : Int) :
    (cx + dx, cy + dy) ∈ circleOrbit cx cy a b ↔
      ((dx = -a ∨ dx = a) ∧ (dy = -b ∨ dy = b)) ∨
      ((dx = -b ∨ dx = b) ∧ (dy = -a ∨ dy = a)) := by
  simp only [circleOrbit, List.mem_cons, List.not_mem_nil, or_false,
    Prod.mk.injEq]
  omega

/-- The eight-position write list of one circle iteration is closed under
the octant reflections about the center: any offset it realizes is
realized in all eight sign/swap variants. -/
theorem circleOrbit_closure (cx cy a b dx dy : Int)
    (h : (cx + dx, cy + dy) ∈ circleOrbit cx cy a b) :
    (cx - dx, cy + dy) ∈ circleOrbit cx cy a b ∧
    (cx + dx, cy - dy) ∈ circleOrbit cx cy a b ∧
    (cx - dx, cy - dy) ∈ circleOrbit cx cy a b ∧
    (cx + dy, cy + dx) ∈ circleOrbit cx cy a b ∧
    (cx - dy, cy + dx) ∈ circleOrbit cx cy a b ∧
    (cx + dy, cy - dx) ∈ circleOrbit cx cy a b ∧
    (cx - dy, cy - dx) ∈ circleOrbit cx cy a b := by
  have hc := (mem_circleOrbit cx cy a b dx dy).mp h
  have key : ∀ dx' dy' : Int,
      (((dx' = -a ∨ dx' = a) ∧ (dy' = -b ∨ dy' = b)) ∨
        ((dx' = -b ∨ dx' = b) ∧ (dy' = -a ∨ dy' = a))) →
      (cx + dx', cy + dy') ∈ circleOrbit cx cy a b := fun dx' dy' hh =>
    (mem_circleOrbit cx cy a b dx' dy').mpr hh
  refine ⟨?_, ?_, ?_, ?_, ?_, ?_, ?_⟩
  · rw [sub_eq_add_neg]
    exact key _ _ (by
      rcases hc with ⟨hx | hx, hy | hy⟩ | ⟨hx | hx, hy | hy⟩ <;>
        subst hx <;> subst hy <;> simp)
  · rw [sub_eq_add_neg]
    exact key _ _ (by
      rcases hc with ⟨hx | hx, hy | hy⟩ | ⟨hx | hx, hy | hy⟩ <;>
        subst hx <;> subst hy <;> simp)
  · rw [sub_eq_add_neg, sub_eq_add_neg]
    exact key _ _ (by
      rcases hc with ⟨hx | hx, hy | hy⟩ | ⟨hx | hx, hy | hy⟩ <;>
        subst hx <;> subst hy <;> simp)
  · exact key _ _ (by
      rcases hc with ⟨hx | hx, hy | hy⟩ | ⟨hx | hx, hy | hy⟩ <;>
        subst hx <;> subst hy <;> simp)
  · rw [sub_eq_add_neg]
    exact key _ _ (by
      rcases hc with ⟨hx | hx, hy | hy⟩ | ⟨hx | hx, hy | hy⟩ <;>
        subst hx <;> subst hy <;> simp)
  · rw [sub_eq_add_neg]
    exact key _ _ (by
      rcases hc with ⟨hx | hx, hy | hy⟩ | ⟨hx | hx, hy | hy⟩ <;>
        subst hx <;> subst hy <;> simp)
  · rw [sub_eq_add_neg, sub_eq_add_neg]
    exact key _ _ (by
      rcases hc with ⟨hx | hx, hy | hy⟩ | ⟨hx | hx, hy | hy⟩ <;>
        subst hx <;> subst hy <;> simp)

/-- Every position emitted by the circle loop lies in some iteration's
eight-position orbit, and that entire orbit is emitted by the loop. -/
theorem circleLoop_mem_orbit (cx cy : Int) :
    ∀ (n a b : Nat) (bal : Int), b + 1 - a ≤ n →
      ∀ p : Int × Int, p ∈ circleLoop cx cy a b bal →
      ∃ a' b' : Nat, p ∈ circleOrbit cx cy a' b' ∧
        ∀ q ∈ circleOrbit cx cy a' b', q ∈ circleLoop cx cy a b bal := by
  intro n
  induction n with
  | zero =>
    intro a b bal hn p hp
    rw [circleLoop.eq_def] at hp
    rw [dif_neg (by omega)] at hp
    exact absurd hp (List.not_mem_nil p)
  | succ m IH =>
    intro a b bal hn p hp
    rw [circleLoop.eq_def] at hp
    by_cases hab : a ≤ b
    · rw [dif_pos hab, List.mem_append] at hp
      rcases hp with hp | hp
      · refine ⟨a, b, hp, ?_⟩
        intro q hq
        rw [circleLoop.eq_def, dif_pos hab, List.mem_append]
        exact Or.inl hq
      · by_cases hbal : 0 ≤ bal + ((a + (a + 1) : Nat) : Int)
        · rw [if_pos hbal] at hp
          obtain ⟨a', b', hmem, hsub⟩ := IH (a + 1) (b - 1) _ (by omega) p hp
          refine ⟨a', b', hmem, ?_⟩
          intro q hq
          rw [circleLoop.eq_def, dif_pos hab, List.mem_append]
          exact Or.inr (by rw [if_pos hbal]; exact hsub q hq)
        · rw [if_neg hbal] at hp
          obtain ⟨a', b', hmem, hsub⟩ := IH (a + 1) b _ (by omega) p hp
          refine ⟨a', b', hmem, ?_⟩
          intro q hq
          rw [circleLoop.eq_def, dif_pos hab, List.mem_append]
          exact Or.inr (by rw [if_neg hbal]; exact hsub q hq)
    · rw [dif_neg hab] at hp
      exact absurd hp (List.not_mem_nil p)

/-- C4: the set of positions `Circle(C, R, Color)` passes to `SetPixel`
is symmetric under the eight octant reflections about the center: if the
offset `(dx, dy)` from `C` is written, so are `(±dx, ±dy)` and
`(±dy, ±dx)`. -/
theorem circle_octant_symmetry (cx cy R : Nat) (dx dy : Int)
    (h : ((cx : Int) + dx, (cy : Int) + dy) ∈ circleCandidates cx cy R) :
    ((cx : Int) - dx, (cy : Int) + dy) ∈ circleCandidates cx cy R ∧
    ((cx : Int) + dx, (cy : Int) - dy) ∈ circleCandidates cx cy R ∧
    ((cx : Int) - dx, (cy : Int) - dy) ∈ circleCandidates cx cy R ∧
    ((cx : Int) + dy, (cy : Int) + dx) ∈ circleCandidates cx cy R ∧
    ((cx : Int) - dy, (cy : Int) + dx) ∈ circleCandidates cx cy R ∧
    ((cx : Int) + dy, (cy : Int) - dx) ∈ circleCandidates cx cy R ∧
    ((cx : Int) - dy, (cy : Int) - dx) ∈ circleCandidates cx cy R := by
  by_cases hR : R ≠ 0
  · simp only [circleCandidates, if_pos hR] at h ⊢
    obtain ⟨a', b', hmem, hsub⟩ :=
      circleLoop_mem_orbit cx cy (R + 1) 0 R (-(R : Int)) (by omega)
        ((cx : Int) + dx, (cy : Int) + dy) h
    obtain ⟨c1, c2, c3, c4, c5, c6, c7⟩ :=
      circleOrbit_closure cx cy a' b' dx dy hmem
    exact ⟨hsub _ c1, hsub _ c2, hsub _ c3, hsub _ c4, hsub _ c5,
      hsub _ c6, hsub _ c7⟩
  · simp only [circleCandidates, if_neg hR] at h
    exact absurd h (List.not_mem_nil _)

/-- Witness for `circle_octant_symmetry`: on the radius-1 circle around
`(10, 10)` the offset `(0, 1)` is written, hence so are all eight of its
reflections. -/
theorem circle_octant_symmetry_witness :
    (((10 : Nat) : Int) - 0, ((10 : Nat) : Int) + 1) ∈
        circleCandidates 10 10 1 ∧
    (((10 : Nat) : Int) + 0, ((10 : Nat) : Int) - 1) ∈
        circleCandidates 10 10 1 ∧
    (((10 : Nat) : Int) - 0, ((10 : Nat) : Int) - 1) ∈
        circleCandidates 10 10 1 ∧
    (((10 : Nat) : Int) + 1, ((10 : Nat) : Int) + 0) ∈
        circleCandidates 10 10 1 ∧
    (((10 : Nat) : Int) - 1, ((10 : Nat) : Int) + 0) ∈
        circleCandidates 10 10 1 ∧
    (((10 : Nat) : Int) + 1, ((10 : Nat) : Int) - 0) ∈
        circleCandidates 10 10 1 ∧
    (((10 : Nat) : Int) - 1, ((10 : Nat) : Int) - 0) ∈
        circleCandidates 10 10 1 :=
  circle_octant_symmetry 10 10 1 0 1 (by
    simp only [circleCandidates]
    norm_num
    rw [circleLoop.eq_def]
    norm_num [circleOrbit])

/-- A bounds-checked write through one handle leaves every other buffer
untouched. -/
theorem hSetPixel_frame (hp : Heap) (s : HSurface) (X Y p i : Nat)
    (hi : i ≠ s.Pixels) : (hSetPixel hp s X Y p).bufs i = hp.bufs i := by
  unfold hSetPixel
  split <;> simp [hi]

/-- Folding writes through one handle leaves every other buffer
untouched. -/
theorem foldl_hSetPixelAt_frame (s : HSurface) (c i : Nat)
    (hi : i ≠ s.Pixels) :
    ∀ (l : List (Int × Int)) (hp : Heap),
      (l.foldl (fun acc q => hSetPixelAt acc s q c) hp).bufs i
        = hp.bufs i := by
  intro l
  induction l with
  | nil => intro hp; rfl
  | cons q qs IH =>
    intro hp
    rw [List.foldl_cons, IH]
    exact hSetPixel_frame hp s _ _ c i hi

/-- Every drawing operation mutates only the buffer the surface's handle
owns. -/
theorem applyOp_frame (hp : Heap) (s : HSurface) (op : DrawOp) (i : Nat)
    (hi : i ≠ s.Pixels) : (applyOp hp s op).bufs i = hp.bufs i := by
  cases op with
  | setPix X Y p => exact hSetPixel_frame hp s X Y p i hi
  | fillOp p =>
    show (hFill hp s p).bufs i = hp.bufs i
    unfold hFill
    simp [hi]
  | lineOp F T c => exact foldl_hSetPixelAt_frame s c i hi _ hp
  | stippleOp F T c pat => exact foldl_hSetPixelAt_frame s c i hi _ hp
  | circleOp cx cy R c => exact foldl_hSetPixelAt_frame s c i hi _ hp

/-- A sequence of drawing operations on one surface mutates only that
surface's buffer. -/
theorem applyOps_frame (s : HSurface) (i : Nat) (hi : i ≠ s.Pixels) :
    ∀ (ops : List DrawOp) (hp : Heap),
      (applyOps hp s ops).bufs i = hp.bufs i := by
  intro ops
  induction ops with
  | nil => intro hp; rfl
  | cons op rest IH =>
    intro hp
    show (applyOps (applyOp hp s op) s rest).bufs i = hp.bufs i
    rw [IH, applyOp_frame hp s op i hi]

/-- C8: copying a surface (by copy construction or copy assignment)
allocates an independent duplicate buffer: any sequence of `SetPixel`,
`Fill`, `Line`, `LineStipple` and `Circle` operations applied to the
copy leaves the original surface's buffer contents exactly as they were
before the copy.  The hypothesis states that the original's handle was
allocated (is below the allocator's high-water mark). -/
theorem copy_deep_isolation (hp : Heap) (s d : HSurface)
    (ops : List DrawOp) (hvalid : s.Pixels < hp.next) :
    (applyOps (copySurface hp s).2 (copySurface hp s).1 ops).bufs s.Pixels
        = hp.bufs s.Pixels ∧
    (applyOps (assignSurface hp d s).2 (assignSurface hp d s).1 ops).bufs
        s.Pixels = hp.bufs s.Pixels := by
  constructor
  · rw [applyOps_frame (copySurface hp s).1 s.Pixels (by
      show s.Pixels ≠ hp.next
      omega) ops]
    show (if s.Pixels = hp.next then _ else hp.bufs s.Pixels) = hp.bufs s.Pixels
    rw [if_neg (by omega)]
  · rw [applyOps_frame (assignSurface hp d s).1 s.Pixels (by
      show s.Pixels ≠ hp.next
      omega) ops]
    show (if s.Pixels = hp.next then _ else hp.bufs s.Pixels) = hp.bufs s.Pixels
    rw [if_neg (by omega)]

/-- Witness for `copy_deep_isolation`: a 2×2 surface holding
`[1,2,3,4]` is copied and the copy is overwritten and drawn on; the
original buffer still reads `[1,2,3,4]`. -/
theorem copy_deep_isolation_witness :
    (applyOps
        (copySurface ⟨1, fun i => if i = 0 then [1, 2, 3, 4] else []⟩
          ⟨2, 2, 0⟩).2
        (copySurface ⟨1, fun i => if i = 0 then [1, 2, 3, 4] else []⟩
          ⟨2, 2, 0⟩).1
        [DrawOp.fillOp 7, DrawOp.setPix 0 1 9,
          DrawOp.lineOp (0, 0) (1, 1) 5]).bufs 0
      = (⟨1, fun i => if i = 0 then [1, 2, 3, 4] else []⟩ : Heap).bufs 0 ∧
    (applyOps
        (assignSurface ⟨1, fun i => if i = 0 then [1, 2, 3, 4] else []⟩
          ⟨0, 0, 3⟩ ⟨2, 2, 0⟩).2
        (assignSurface ⟨1, fun i => if i = 0 then [1, 2, 3, 4] else []⟩
          ⟨0, 0, 3⟩ ⟨2, 2, 0⟩).1
        [DrawOp.fillOp 7, DrawOp.setPix 0 1 9,
          DrawOp.lineOp (0, 0) (1, 1) 5]).bufs 0
      = (⟨1, fun i => if i = 0 then [1, 2, 3, 4] else []⟩ : Heap).bufs 0 :=
  copy_deep_isolation ⟨1, fun i => if i = 0 then [1, 2, 3, 4] else []⟩
    ⟨2, 2, 0⟩ ⟨0, 0, 3⟩
    [DrawOp.fillOp 7, DrawOp.setPix 0 1 9, DrawOp.lineOp (0, 0) (1, 1) 5]
    (by decide)

/-- C3 (code bug): at center `(0,0)`, half-extents `(2,2)` and point
`(1,0)` the specification's containment predicate holds (the point is
strictly inside the rectangle), yet `BltRect::Contains` returns `false`,
because the source compares the X-axis distance with `==` instead of
`<=` (`Abs(Dist.X) == Abs(HalfDimensions.X)` at
src/include/MinBlit.hpp:290). -/
theorem rect_contains_code_eval :
    BltRect.Contains ⟨0, 0, 2, 2⟩ 1 0 = false ∧
      rectContainsSpec ⟨0, 0, 2, 2⟩ 1 0 := by
  constructor
  · decide
  · constructor <;> decide

end MinBlit
